import Mathlib

set_option maxHeartbeats 1000000

namespace Relay

/-- Opaque string identifier for one node in the graph (`DataID` in
`RelayStoreTypes.js`). -/
abbrev DataID := String

/-- A field value of a record: scalar, link to one record, ordered link list,
or explicit null (spec section 3, "Record"). -/
inductive Value where
  | scalar : String → Value
  | link : DataID → Value
  | links : List DataID → Value
  | null : Value
deriving DecidableEq, Repr

/-- A record: a type name plus a storage-key-to-value field map
(spec section 3, "Record"). -/
structure Record where
  typename : String
  fields : List (String × Value)
deriving DecidableEq, Repr

/-- Modelled from the spec: `RelayInMemoryRecordSource` (not under `src/`; only
the `RecordSource`/`MutableRecordSource` interfaces in `RelayStoreTypes.js`
are). A `RecordSource` maps `DataID` to record-or-tombstone: an entry
`(id, some r)` means EXISTENT with record `r`, an entry `(id, none)` means
NONEXISTENT (explicitly deleted), and a missing entry means UNKNOWN.
Keys are unique by construction of `rsSet`. -/
abbrev RecordSource := List (DataID × Option Record)

/-- Status lookup: `some (some r)` = EXISTENT, `some none` = NONEXISTENT,
`none` = UNKNOWN. -/
def rsGet (s : RecordSource) (id : DataID) : Option (Option Record) :=
  List.lookup id s

/-- The record content a reader observes: the record if EXISTENT, otherwise
nothing (NONEXISTENT and UNKNOWN both read as absent). -/
def rsContent (s : RecordSource) (id : DataID) : Option Record :=
  (rsGet s id).join

/-- Modelled from the spec: `MutableRecordSource.set`/`delete` — store an
entry (record or tombstone) under `id`, replacing any previous entry. -/
def rsSet (s : RecordSource) (id : DataID) (v : Option Record) : RecordSource :=
  (id, v) :: s.filter (fun p => p.1 != id)

theorem rsGet_set_self (s : RecordSource) (id : DataID) (v : Option Record) :
    rsGet (rsSet s id v) id = some v := by
  simp [rsGet, rsSet, List.lookup]

theorem lookup_filter_ne {β : Type} (s : List (DataID × β)) (id id2 : DataID)
    (h : id2 ≠ id) :
    List.lookup id2 (s.filter (fun p => p.1 != id)) = List.lookup id2 s := by
  induction s with
  | nil => rfl
  | cons p rest ih =>
    obtain ⟨k, v⟩ := p
    by_cases hp : k = id
    · have hpred : ((k, v).1 != id) = false := by simp [hp]
      have h2 : (id2 == k) = false := by rw [hp]; simpa using h
      simp [List.filter_cons, hpred, List.lookup, h2, ih]
    · have hpred : ((k, v).1 != id) = true := by simp [hp]
      by_cases h3 : id2 = k
      · simp [List.filter_cons, hpred, List.lookup, h3]
      · have h4 : (id2 == k) = false := by simpa using h3
        simp [List.filter_cons, hpred, List.lookup, h4, ih]

theorem rsGet_set_ne (s : RecordSource) (id id2 : DataID) (v : Option Record)
    (h : id2 ≠ id) : rsGet (rsSet s id v) id2 = rsGet s id2 := by
  simp only [rsGet, rsSet, List.lookup]
  have : (id2 == id) = false := by simp [h]
  simp [this]
  exact lookup_filter_ne s id id2 h

/-- Modelled from the spec: `Store.publish(source)` "merges `source` into the
canonical source immediately but performs no subscriber callback"
(spec section 4.2). Each entry of `source` (record or tombstone) replaces
the target's entry for that id; ids absent from `source` are untouched. -/
def publishSrc (target src : RecordSource) : RecordSource :=
  src.foldr (fun p acc => rsSet acc p.1 p.2) target

theorem publishSrc_nil (t : RecordSource) : publishSrc t [] = t := rfl

theorem publishSrc_cons (t : RecordSource) (p : DataID × Option Record)
    (s : RecordSource) :
    publishSrc t (p :: s) = rsSet (publishSrc t s) p.1 p.2 := rfl

theorem rsGet_publishSrc_of_mem (t s : RecordSource) (id : DataID)
    (v : Option Record) (h : rsGet s id = some v) :
    rsGet (publishSrc t s) id = some v := by
  induction s with
  | nil => simp [rsGet, List.lookup] at h
  | cons p rest ih =>
    cases p with
    | mk k w =>
      rw [publishSrc_cons]
      by_cases hk : id = k
      · subst hk
        simp only [rsGet, List.lookup, beq_self_eq_true] at h
        cases h
        exact rsGet_set_self _ _ _
      · have hb : (id == k) = false := by simp [hk]
        simp only [rsGet, List.lookup, hb] at h
        rw [rsGet_set_ne _ _ _ _ hk]
        exact ih h

theorem rsGet_publishSrc_of_not_mem (t s : RecordSource) (id : DataID)
    (h : rsGet s id = none) :
    rsGet (publishSrc t s) id = rsGet t id := by
  induction s with
  | nil => rfl
  | cons p rest ih =>
    cases p with
    | mk k w =>
      rw [publishSrc_cons]
      by_cases hk : id = k
      · subst hk
        simp [rsGet, List.lookup] at h
      · have hb : (id == k) = false := by simp [hk]
        simp only [rsGet, List.lookup, hb] at h
        rw [rsGet_set_ne _ _ _ _ hk]
        exact ih h

/-- Modelled from the spec: `RelayRecordSourceMutator` (not under `src/`).
A three-layer overlay: `base` read-only canonical source, `sink` write
buffer, optional `backup` undo log (spec sections 3 and 4.3). -/
structure Mutator where
  base : RecordSource
  sink : RecordSource
  backup : Option RecordSource

/-- Modelled from the spec: mutator read — "if `sink` has an entry (including
an explicit tombstone), return it; else defer to `base`" (spec section 4.3). -/
def mget (m : Mutator) (id : DataID) : Option (Option Record) :=
  match rsGet m.sink id with
  | some v => some v
  | none => rsGet m.base id

/-- Modelled from the spec: "Before the first write to any given `id` within
the transaction, if a `backup` sink was supplied, copy that id's current
(`base` or prior-sink) value into `backup` unmodified" — first-touch wins
(spec sections 3 and 4.3). A backup entry `some r` records that the record
existed with value `r`; a tombstone entry records that it did not. -/
def mCapture (m : Mutator) (id : DataID) : Mutator :=
  match m.backup with
  | none => m
  | some b =>
    if (rsGet b id).isSome then m
    else { m with backup := some (rsSet b id (mget m id).join) }

/-- Set a field of a field map, replacing an existing entry for the key in
place or appending a new one. -/
def setField (fs : List (String × Value)) (k : String) (v : Value) :
    List (String × Value) :=
  if fs.any (fun p => p.1 == k) then
    fs.map (fun p => if p.1 == k then (k, v) else p)
  else fs ++ [(k, v)]

/-- Primitive operations a caller-supplied updater or handler can perform
through the proxy/mutator pair. Updater identity in the queue is an opaque
token plus this operation list (spec section 9, "Updater identity as a
map/set key"). -/
inductive UpdOp where
  | setValue (id : DataID) (typename : String) (key : String) (v : Value)
  | deleteRecord (id : DataID)
  | copyValue (fromId : DataID) (fromKey : String) (toId : DataID)
      (typename : String) (toKey : String)
deriving DecidableEq, Repr

/-- Modelled from the spec: the proxy `setValue` path — capture the backup on
first touch, then write the updated record into the sink (spec section 4.4,
routed through the mutator's capture-then-write path of section 4.3).
Creates the record if it does not exist. -/
def opSetValue (m : Mutator) (id : DataID) (tname : String) (key : String)
    (v : Value) : Mutator :=
  let m1 := mCapture m id
  let newRec : Record :=
    match (mget m1 id).join with
    | some r => { r with fields := setField r.fields key v }
    | none => { typename := tname, fields := [(key, v)] }
  { m1 with sink := rsSet m1.sink id (some newRec) }

/-- Modelled from the spec: the proxy `delete` path — capture the backup on
first touch, then write a tombstone into the sink. -/
def opDelete (m : Mutator) (id : DataID) : Mutator :=
  let m1 := mCapture m id
  { m1 with sink := rsSet m1.sink id none }

/-- Modelled from the spec: a read-then-write proxy operation (get a field's
value from one record, write it into another), exhibiting that reads go
through the mutator's sink-else-base view. Always touches the target. -/
def opCopyValue (m : Mutator) (fromId : DataID) (fromKey : String)
    (toId : DataID) (tname : String) (toKey : String) : Mutator :=
  let v? := ((mget m fromId).join).bind (fun r => r.fields.lookup fromKey)
  let m1 := mCapture m toId
  let rec0 : Record :=
    match (mget m1 toId).join with
    | some r => r
    | none => { typename := tname, fields := [] }
  let rec1 : Record :=
    match v? with
    | some v => { rec0 with fields := setField rec0.fields toKey v }
    | none => rec0
  { m1 with sink := rsSet m1.sink toId (some rec1) }

/-- Interpret one primitive operation on the mutator. -/
def applyOp (m : Mutator) (op : UpdOp) : Mutator :=
  match op with
  | .setValue id tname key v => opSetValue m id tname key v
  | .deleteRecord id => opDelete m id
  | .copyValue fromId fromKey toId tname toKey =>
      opCopyValue m fromId fromKey toId tname toKey

/-- Interpret an operation list left to right. -/
def applyOps (m : Mutator) (ops : List UpdOp) : Mutator :=
  ops.foldl applyOp m

/-- The ids an operation writes to (its touched record). -/
def opTarget : UpdOp → DataID
  | .setValue id _ _ _ => id
  | .deleteRecord id => id
  | .copyValue _ _ toId _ _ => toId

/-- The set of record ids an operation list touches (writes). -/
def writeTargets (ops : List UpdOp) : List DataID :=
  ops.map opTarget

/-- An observable store event: a `publish(source)` call (recording the source
that was published) or a `notify()` call. -/
inductive Event where
  | publish : RecordSource → Event
  | notify : Event
deriving DecidableEq, Repr

/-- Modelled from the spec: the `Store` of section 4.2 (only the interface in
`RelayStoreTypes.js` is under `src/`): it owns the canonical record source;
`publish` merges immediately with no subscriber callback; `notify` is the
single point where observers see change. The `log` records the sequence of
`publish`/`notify` calls the queue makes. -/
structure Store where
  source : RecordSource
  log : List Event

/-- Modelled from the spec: `store.publish(source)` — merge and record the
event. -/
def storePublish (st : Store) (src : RecordSource) : Store :=
  { source := publishSrc st.source src, log := st.log ++ [Event.publish src] }

/-- Modelled from the spec: `store.notify()` — record the notification
event. -/
def storeNotify (st : Store) : Store :=
  { st with log := st.log ++ [Event.notify] }

/-- An optimistic updater (`StoreUpdater`): an opaque identity token plus the
operations it performs on the proxy. JS function reference identity becomes
structural identity of this pair (spec section 9). -/
structure Updater where
  token : Nat
  ops : List UpdOp
deriving DecidableEq, Repr

/-- One handle field payload, from `RelayStoreTypes.js`
(`HandleFieldPayload`): `{dataID, fieldKey, handle, handleKey, args}`. -/
structure HandleFieldPayload where
  dataID : DataID
  fieldKey : String
  handle : String
  handleKey : String
deriving DecidableEq, Repr

/-- A pending payload, from `RelayPublishQueue.js` (`type Payload`):
`{fieldPayloads, selector, source, updater}`. The selector is opaque to the
queue; the optional updater is a `SelectorStoreUpdater` modelled as an
operation list. -/
structure Payload where
  fieldPayloads : Option (List HandleFieldPayload)
  selector : DataID
  source : RecordSource
  updater : Option (List UpdOp)
deriving DecidableEq, Repr

/-- A handler for a handle field (`Handler` in `RelayStaticEnvironment`):
`update(proxy, fieldPayload)` mutates records through the proxy/mutator. -/
structure Handler where
  update : HandleFieldPayload → Mutator → Mutator

/-- A handler provider: maps a handle name to its registered handler, if
any (`HandlerProvider`). -/
def HandlerProvider : Type := String → Option Handler

/-- The publish queue state, from `RelayPublishQueue.js`: store,
handler provider, backup undo log, rebase flag, pending payloads, pending
updaters and applied updaters. JS `Set` iteration order is insertion order,
so the sets are modelled as duplicate-free lists. -/
structure PublishQueue where
  store : Store
  handlerProvider : HandlerProvider
  backup : RecordSource
  pendingBackupRebase : Bool
  pendingPayloads : List Payload
  pendingUpdaters : List Updater
  appliedUpdaters : List Updater

/-- A fresh queue over an empty store, as built by the constructor of
`RelayPublishQueue`. -/
def mkQueue (provider : HandlerProvider) : PublishQueue :=
  { store := { source := [], log := [] }
    handlerProvider := provider
    backup := []
    pendingBackupRebase := false
    pendingPayloads := []
    pendingUpdaters := []
    appliedUpdaters := [] }

/-- JS `Set.add`: append if not already present (insertion order kept). -/
def jsAdd (l : List Updater) (u : Updater) : List Updater :=
  if u ∈ l then l else l ++ [u]

/-- The invariant message of `RelayPublishQueue.applyUpdate`. -/
def dupMsg : String :=
  "RelayPublishQueue: Cannot apply the same update function more than once concurrently."

/-- `RelayPublishQueue.applyUpdate`: invariant failure (modelled as `.error`)
if the updater is already applied or pending, else add it to the pending
updaters. -/
def applyUpdate (u : Updater) (q : PublishQueue) :
    Except String PublishQueue :=
  if u ∈ q.appliedUpdaters ∨ u ∈ q.pendingUpdaters then
    Except.error dupMsg
  else
    Except.ok { q with pendingUpdaters := q.pendingUpdaters ++ [u] }

/-- `RelayPublishQueue.revertUpdate`: drop from pending if pending; else if
applied, set the rebase flag and drop from applied; else do nothing. -/
def revertUpdate (u : Updater) (q : PublishQueue) : PublishQueue :=
  if u ∈ q.pendingUpdaters then
    { q with pendingUpdaters := q.pendingUpdaters.erase u }
  else if u ∈ q.appliedUpdaters then
    { q with pendingBackupRebase := true,
             appliedUpdaters := q.appliedUpdaters.erase u }
  else q

/-- `RelayPublishQueue.revertAll`: set the rebase flag and clear both
updater sets. -/
def revertAll (q : PublishQueue) : PublishQueue :=
  { q with pendingBackupRebase := true,
           pendingUpdaters := [],
           appliedUpdaters := [] }

/-- `RelayPublishQueue.commitPayload`: set the rebase flag and enqueue the
payload. -/
def commitPayload (selector : DataID)
    (fieldPayloads : Option (List HandleFieldPayload))
    (source : RecordSource) (updater : Option (List UpdOp))
    (q : PublishQueue) : PublishQueue :=
  { q with
      pendingBackupRebase := true,
      pendingPayloads := q.pendingPayloads ++
        [{ fieldPayloads := fieldPayloads, selector := selector,
           source := source, updater := updater }] }

/-- The invariant message of `_commitPayloads` for a missing handler. -/
def missingMsg (handle : String) : String :=
  "RelayStaticEnvironment: Expected a handler to be provided for handle " ++ handle

/-- Run the field payload handlers of one payload over the mutator; a handle
name with no registered handler is an invariant failure
(`RelayPublishQueue._commitPayloads`, the inner `forEach`). -/
def runFieldHandlers (provider : HandlerProvider) :
    List HandleFieldPayload → Mutator → Except String Mutator
  | [], m => Except.ok m
  | fp :: rest, m =>
    match provider fp.handle with
    | none => Except.error (missingMsg fp.handle)
    | some h => runFieldHandlers provider rest (h.update fp m)

/-- Process one pending payload (`RelayPublishQueue._commitPayloads`, one
iteration): build a fresh mutator over `(store source, payload.source)` with
no backup, run the field payload handlers, run the optional selector
updater, and return the resulting sink (the payload source plus the
handlers' and updater's writes) to be published. -/
def processPayload (provider : HandlerProvider) (storeSrc : RecordSource)
    (p : Payload) : Except String RecordSource :=
  let m0 : Mutator := { base := storeSrc, sink := p.source, backup := none }
  match runFieldHandlers provider (p.fieldPayloads.getD []) m0 with
  | Except.error e => Except.error e
  | Except.ok m1 =>
    let m2 := match p.updater with
      | some ops => applyOps m1 ops
      | none => m1
    Except.ok m2.sink

/-- Process the pending payloads in order, publishing each processed source
immediately so the next payload reads the store fresh
(`RelayPublishQueue._commitPayloads`, the outer `forEach`). On an invariant
failure the store reflects the payloads already published. -/
def commitPayloadsAux (provider : HandlerProvider) (st : Store) :
    List Payload → Except (String × Store) Store
  | [] => Except.ok st
  | p :: rest =>
    match processPayload provider st.source p with
    | Except.error e => Except.error (e, st)
    | Except.ok sink => commitPayloadsAux provider (storePublish st sink) rest

/-- `RelayPublishQueue._commitPayloads`: drain the pending payloads; on
success they are cleared, on an invariant failure they are kept (the JS
exception skips the `clear()`). -/
def commitPayloadsQ (q : PublishQueue) :
    Except (String × PublishQueue) PublishQueue :=
  match commitPayloadsAux q.handlerProvider q.store q.pendingPayloads with
  | Except.error (e, st) => Except.error (e, { q with store := st })
  | Except.ok st => Except.ok { q with store := st, pendingPayloads := [] }

/-- Run one updater's operations over the mutator. -/
def applyUpdater (m : Mutator) (u : Updater) : Mutator :=
  applyOps m u.ops

/-- `RelayPublishQueue._applyUpdates`: if there are pending updaters, or a
rebase is flagged and there are applied updaters, build a fresh mutator over
`(store source, empty sink, queue backup)`, replay the applied updaters in
order when rebasing, then apply the pending updaters in order (each added to
the applied set), and publish the sink. The queue's backup accumulates the
captures made through the mutator. -/
def applyUpdatesQ (q : PublishQueue) : PublishQueue :=
  if q.pendingUpdaters ≠ [] ∨ (q.pendingBackupRebase ∧ q.appliedUpdaters ≠ []) then
    let m0 : Mutator := { base := q.store.source, sink := [], backup := some q.backup }
    let m1 :=
      if q.pendingBackupRebase ∧ q.appliedUpdaters ≠ [] then
        q.appliedUpdaters.foldl applyUpdater m0
      else m0
    let m2 := q.pendingUpdaters.foldl applyUpdater m1
    { q with
        store := storePublish q.store m2.sink,
        backup := m2.backup.getD [],
        appliedUpdaters := q.pendingUpdaters.foldl jsAdd q.appliedUpdaters,
        pendingUpdaters := [] }
  else q

/-- `RelayPublishQueue.run` step 1: if a rebase is pending and the backup is
non-empty, publish the backup and reset it to an empty source. -/
def rebaseStep (q : PublishQueue) : PublishQueue :=
  if q.pendingBackupRebase ∧ q.backup ≠ [] then
    { q with store := storePublish q.store q.backup, backup := [] }
  else q

/-- The result of `run()`: success, or a JS exception carrying the queue
state at the moment of the throw (partial publishes included, pending sets
not cleared). -/
inductive RunResult where
  | ok : PublishQueue → RunResult
  | err : String → PublishQueue → RunResult

/-- The queue state a `RunResult` leaves behind. -/
def RunResult.getQ : RunResult → PublishQueue
  | .ok q => q
  | .err _ q => q

/-- `RelayPublishQueue.run`: backup rebase step, then payload commit, then
updater (re)application, then clear the rebase flag, then exactly one
`store.notify()`. An invariant failure inside the payload commit aborts the
rest. -/
def run (q : PublishQueue) : RunResult :=
  let q1 := rebaseStep q
  match commitPayloadsQ q1 with
  | Except.error (e, q2) => RunResult.err e q2
  | Except.ok q2 =>
    let q3 := applyUpdatesQ q2
    let q4 := { q3 with pendingBackupRebase := false }
    RunResult.ok { q4 with store := storeNotify q4.store }

/-- The list of updaters `_applyUpdates` executes during a `run()`: the
applied updaters (only when a rebase is flagged), in original application
order, followed by the pending updaters in application order. -/
def replayUpdaters (q : PublishQueue) : List Updater :=
  (if q.pendingBackupRebase ∧ q.appliedUpdaters ≠ [] then q.appliedUpdaters
   else []) ++ q.pendingUpdaters

/-- A handler provider with no registered handlers. -/
def noHandlers : HandlerProvider := fun _ => none

/-- Extract the queue from a successful `applyUpdate`, with a fallback for
the error case (used to write concrete scenarios). -/
def exQ (e : Except String PublishQueue) (d : PublishQueue) : PublishQueue :=
  match e with
  | Except.ok q => q
  | Except.error _ => d

theorem applyUpdate_ok_inv (u : Updater) (q q1 : PublishQueue)
    (h : applyUpdate u q = Except.ok q1) :
    u ∉ q.appliedUpdaters ∧ u ∉ q.pendingUpdaters ∧
      q1 = { q with pendingUpdaters := q.pendingUpdaters ++ [u] } := by
  by_cases hmem : u ∈ q.appliedUpdaters ∨ u ∈ q.pendingUpdaters
  · simp [applyUpdate, hmem] at h
  · push_neg at hmem
    simp [applyUpdate, not_or.mpr ⟨hmem.1, hmem.2⟩] at h
    exact ⟨hmem.1, hmem.2, h.symm⟩

theorem run_quiescent (q : PublishQueue) (h1 : q.pendingPayloads = [])
    (h2 : q.pendingUpdaters = []) (h3 : q.pendingBackupRebase = false) :
    run q = RunResult.ok
      { q with store := storeNotify q.store, pendingBackupRebase := false } := by
  obtain ⟨st, hp, bk, flag, pp, pu, au⟩ := q
  simp only at h1 h2 h3
  subst h1; subst h2; subst h3
  simp [run, rebaseStep, commitPayloadsQ, commitPayloadsAux, applyUpdatesQ]

/-- Claim C10: calling `revertUpdate` with an updater token that is neither
pending nor applied is a silent no-op: the queue state (pending set, applied
set, backup, rebase flag, store) is returned unchanged, and the function is
total, so it never throws. -/
theorem c10_revert_noop (u : Updater) (q : PublishQueue)
    (hp : u ∉ q.pendingUpdaters) (ha : u ∉ q.appliedUpdaters) :
    revertUpdate u q = q := by
  simp [revertUpdate, hp, ha]

theorem c10_witness :
    revertUpdate { token := 42, ops := [] } (mkQueue noHandlers) =
      mkQueue noHandlers :=
  c10_revert_noop { token := 42, ops := [] } (mkQueue noHandlers)
    (by simp [mkQueue]) (by simp [mkQueue])

/-- Claim C3: `applyUpdate` fails (an invariant violation, modelled as
`Except.error`) if and only if the updater token is already pending or
applied; otherwise it appends the updater to the pending set; in particular
applying the same updater twice with no `run()` or revert in between fails. -/
theorem c3_applyUpdate_dup (u : Updater) (q : PublishQueue) :
    ((∃ e, applyUpdate u q = Except.error e) ↔
      (u ∈ q.pendingUpdaters ∨ u ∈ q.appliedUpdaters))
    ∧ (u ∉ q.pendingUpdaters → u ∉ q.appliedUpdaters →
        applyUpdate u q =
          Except.ok { q with pendingUpdaters := q.pendingUpdaters ++ [u] })
    ∧ (∀ q1, applyUpdate u q = Except.ok q1 →
        ∃ e, applyUpdate u q1 = Except.error e) := by
  refine ⟨?_, ?_, ?_⟩
  · constructor
    · rintro ⟨e, he⟩
      by_cases hmem : u ∈ q.appliedUpdaters ∨ u ∈ q.pendingUpdaters
      · exact hmem.symm
      · simp [applyUpdate, hmem] at he
    · intro hmem
      exact ⟨dupMsg, by simp [applyUpdate, hmem.symm]⟩
  · intro hp ha
    simp [applyUpdate, not_or.mpr ⟨ha, hp⟩]
  · intro q1 h
    obtain ⟨ha, hp, hq1⟩ := applyUpdate_ok_inv u q q1 h
    have hmem : u ∈ q1.pendingUpdaters := by
      rw [hq1]; simp
    exact ⟨dupMsg, by simp [applyUpdate, Or.inr hmem]⟩

theorem c3_witness :
    applyUpdate { token := 3, ops := [] } (mkQueue noHandlers) =
      Except.ok { mkQueue noHandlers with
        pendingUpdaters := [{ token := 3, ops := [] }] }
    ∧ (∃ e, applyUpdate { token := 3, ops := [] }
        { mkQueue noHandlers with
          pendingUpdaters := [{ token := 3, ops := [] }] } = Except.error e) := by
  constructor
  · exact (c3_applyUpdate_dup { token := 3, ops := [] } (mkQueue noHandlers)).2.1
      (by simp [mkQueue]) (by simp [mkQueue])
  · exact ((c3_applyUpdate_dup { token := 3, ops := [] }
      { mkQueue noHandlers with
        pendingUpdaters := [{ token := 3, ops := [] }] }).1).mpr (Or.inl (by simp))

/-- Claim C4: `revertUpdate` on a pending-only updater silently drops it from
the pending set without setting the rebase flag; on an applied updater it
removes it from the applied set and sets `pendingBackupRebase`, and the
updater is absent from the list the next `run()` replays. -/
theorem c4_revertUpdate (u : Updater) (q : PublishQueue) :
    (u ∈ q.pendingUpdaters →
      revertUpdate u q = { q with pendingUpdaters := q.pendingUpdaters.erase u })
    ∧ (u ∉ q.pendingUpdaters → u ∈ q.appliedUpdaters →
        revertUpdate u q =
          { q with
            pendingBackupRebase := true,
            appliedUpdaters := q.appliedUpdaters.erase u })
    ∧ (u ∉ q.pendingUpdaters → q.appliedUpdaters.Nodup →
        u ∉ replayUpdaters (revertUpdate u q)) := by
  refine ⟨?_, ?_, ?_⟩
  · intro hp
    simp [revertUpdate, hp]
  · intro hp ha
    simp [revertUpdate, hp, ha]
  · intro hp hnd
    by_cases ha : u ∈ q.appliedUpdaters
    · have hrv : revertUpdate u q =
          { q with
            pendingBackupRebase := true,
            appliedUpdaters := q.appliedUpdaters.erase u } := by
        simp [revertUpdate, hp, ha]
      rw [hrv]
      simp only [replayUpdaters, List.mem_append]
      rintro (hmem | hmem)
      · split at hmem
        · have := (List.Nodup.mem_erase_iff hnd).mp hmem
          exact this.1 rfl
        · simp at hmem
      · exact hp hmem
    · have hrv : revertUpdate u q = q := by
        simp [revertUpdate, hp, ha]
      rw [hrv]
      simp only [replayUpdaters, List.mem_append]
      rintro (hmem | hmem)
      · split at hmem
        · exact ha hmem
        · simp at hmem
      · exact hp hmem

theorem c4_witness :
    revertUpdate { token := 4, ops := [] }
      { mkQueue noHandlers with
        pendingUpdaters := [{ token := 4, ops := [] }] } =
      mkQueue noHandlers
    ∧ revertUpdate { token := 4, ops := [] }
      { mkQueue noHandlers with
        appliedUpdaters := [{ token := 4, ops := [] }] } =
      { mkQueue noHandlers with pendingBackupRebase := true } := by
  constructor
  · have h := (c4_revertUpdate { token := 4, ops := [] }
      { mkQueue noHandlers with
        pendingUpdaters := [{ token := 4, ops := [] }] }).1 (by simp)
    rw [h]
    simp [mkQueue, List.erase_cons_head]
  · have h := (c4_revertUpdate { token := 4, ops := [] }
      { mkQueue noHandlers with
        appliedUpdaters := [{ token := 4, ops := [] }] }).2.1
      (by simp [mkQueue]) (by simp)
    rw [h]
    simp [mkQueue, List.erase_cons_head]

/-- The optimistic updater of Scenario C: sets record "4"'s name to
"Optimistic". -/
def optimisticU : Updater :=
  { token := 1, ops := [UpdOp.setValue "4" "User" "name" (Value.scalar "Optimistic")] }

/-- The server payload source of Scenario C: record "4" with name
"Official". -/
def officialSrc : RecordSource :=
  [("4", some { typename := "User", fields := [("name", Value.scalar "Official")] })]

/-- Scenario C, step 1: apply the optimistic updater on a fresh queue. -/
def scenC_q1 : PublishQueue :=
  exQ (applyUpdate optimisticU (mkQueue noHandlers)) (mkQueue noHandlers)

/-- Scenario C, step 2: first `run()` — the optimistic value is published. -/
def scenC_q2 : PublishQueue := (run scenC_q1).getQ

/-- Scenario C, step 3: commit the authoritative payload. -/
def scenC_q3 : PublishQueue :=
  commitPayload "client:root" none officialSrc none scenC_q2

/-- Scenario C, step 4: second `run()` — rebase on top of server data. -/
def scenC_final : PublishQueue := (run scenC_q3).getQ

/-- Claim C2: `commitPayload` always sets `pendingBackupRebase` and enqueues
the payload, so the next `run()` rebases every applied optimistic updater on
top of the committed server data; concretely (Scenario C), with an applied
updater setting record "4"'s name to "Optimistic", committing a payload with
name "Official" and running leaves the optimistic value on top. -/
theorem c2_commitPayload_rebase :
    (∀ selector fps src upd q, commitPayload selector fps src upd q =
      { q with
        pendingBackupRebase := true,
        pendingPayloads := q.pendingPayloads ++
          [{ fieldPayloads := fps, selector := selector, source := src,
             updater := upd }] })
    ∧ rsContent scenC_final.store.source "4" =
        some { typename := "User",
               fields := [("name", Value.scalar "Optimistic")] } := by
  refine ⟨fun selector fps src upd q => rfl, ?_⟩
  decide

/-- The queue of the C5 counterexample: a payload is already pending (and the
rebase flag set) before the apply/revert pair happens. -/
def c5_pendingQ : PublishQueue :=
  commitPayload "client:root" none officialSrc none (mkQueue noHandlers)

/-- An unrelated updater used for the C5 apply/revert pair. -/
def c5_u : Updater :=
  { token := 9, ops := [UpdOp.setValue "7" "User" "name" (Value.scalar "X")] }

/-- Claim C5 counterexample: starting from a queue with a pending payload,
`applyUpdate(U)` then `revertUpdate(U)` then `run()` does change the store
(record "4" goes from unknown to the committed payload value), so the
sequence does not leave the store in the state it had before
`applyUpdate(U)` for every initial queue state. -/
theorem c5_counterexample :
    rsGet ((run (revertUpdate c5_u
        (exQ (applyUpdate c5_u c5_pendingQ) c5_pendingQ))).getQ.store.source)
        "4" ≠
      rsGet c5_pendingQ.store.source "4" := by
  decide

/-- Claim C5 (amended): `applyUpdate(U)` followed by `revertUpdate(U)`
restores the queue state exactly, so the sequence followed by `run()`
behaves exactly like `run()` alone from the initial state; in particular
when the initial queue has no other pending work (no pending payloads, no
pending updaters, no pending rebase) no record in the store changes. -/
theorem c5_apply_revert_run (u : Updater) (q q1 : PublishQueue)
    (h : applyUpdate u q = Except.ok q1) :
    revertUpdate u q1 = q
    ∧ run (revertUpdate u q1) = run q
    ∧ (q.pendingPayloads = [] → q.pendingUpdaters = [] →
        q.pendingBackupRebase = false →
        ∀ id, rsGet ((run (revertUpdate u q1)).getQ.store.source) id =
          rsGet q.store.source id) := by
  obtain ⟨ha, hp, hq1⟩ := applyUpdate_ok_inv u q q1 h
  have hmem : u ∈ q1.pendingUpdaters := by rw [hq1]; simp
  have herase : q1.pendingUpdaters.erase u = q.pendingUpdaters := by
    rw [hq1]
    show (q.pendingUpdaters ++ [u]).erase u = q.pendingUpdaters
    rw [List.erase_append_right _ hp, List.erase_cons_head, List.append_nil]
  have hrev : revertUpdate u q1 = q := by
    rw [revertUpdate, if_pos hmem, herase, hq1]
  refine ⟨hrev, by rw [hrev], ?_⟩
  intro h1 h2 h3 id
  rw [hrev, run_quiescent q h1 h2 h3]
  rfl

theorem c5_witness :
    revertUpdate c5_u
        { mkQueue noHandlers with pendingUpdaters := [c5_u] } =
      mkQueue noHandlers
    ∧ rsGet ((run (revertUpdate c5_u
        { mkQueue noHandlers with
          pendingUpdaters := [c5_u] })).getQ.store.source) "4" =
      rsGet (mkQueue noHandlers).store.source "4" :=
  ⟨(c5_apply_revert_run c5_u (mkQueue noHandlers)
      { mkQueue noHandlers with pendingUpdaters := [c5_u] } rfl).1,
   (c5_apply_revert_run c5_u (mkQueue noHandlers)
      { mkQueue noHandlers with pendingUpdaters := [c5_u] } rfl).2.2
     rfl rfl rfl "4"⟩

/-- The sources `_commitPayloads` publishes, payload by payload: each payload
is processed against the store source as already updated by the previous
payloads' publishes; `none` when some handler is missing. -/
def commitTrace (provider : HandlerProvider) (src : RecordSource) :
    List Payload → Option (List RecordSource)
  | [] => some []
  | p :: rest =>
    match processPayload provider src p with
    | Except.error _ => none
    | Except.ok sink =>
      (commitTrace provider (publishSrc src sink) rest).map (fun l => sink :: l)

theorem storePublish_log (st : Store) (s : RecordSource) :
    (storePublish st s).log = st.log ++ [Event.publish s] := rfl

theorem foldl_storePublish_log (sinks : List RecordSource) (st : Store) :
    (sinks.foldl storePublish st).log = st.log ++ sinks.map Event.publish := by
  induction sinks generalizing st with
  | nil => simp
  | cons s rest ih =>
    simp [List.foldl_cons, ih, storePublish, List.append_assoc]

theorem foldl_storePublish_source (sinks : List RecordSource) (st : Store) :
    (sinks.foldl storePublish st).source = sinks.foldl publishSrc st.source := by
  induction sinks generalizing st with
  | nil => rfl
  | cons s rest ih => simp [List.foldl_cons, ih, storePublish]

theorem commitPayloadsAux_ok (provider : HandlerProvider) :
    ∀ (ps : List Payload) (st st' : Store),
      commitPayloadsAux provider st ps = Except.ok st' →
      ∃ sinks, commitTrace provider st.source ps = some sinks ∧
        st' = sinks.foldl storePublish st := by
  intro ps
  induction ps with
  | nil =>
    intro st st' h
    simp only [commitPayloadsAux] at h
    cases h
    exact ⟨[], rfl, rfl⟩
  | cons p rest ih =>
    intro st st' h
    simp only [commitPayloadsAux] at h
    split at h
    · exact absurd h (by simp)
    · rename_i sink hp
      obtain ⟨sinks, htr, hst⟩ := ih (storePublish st sink) st' h
      refine ⟨sink :: sinks, ?_, ?_⟩
      · simp only [commitTrace, hp]
        have hsrc : (storePublish st sink).source = publishSrc st.source sink := rfl
        rw [hsrc] at htr
        rw [htr]
        rfl
      · simpa [List.foldl_cons] using hst

theorem commitPayloadsQ_ok (q qa : PublishQueue)
    (h : commitPayloadsQ q = Except.ok qa) :
    ∃ sinks,
      commitTrace q.handlerProvider q.store.source q.pendingPayloads = some sinks ∧
      qa = { q with store := sinks.foldl storePublish q.store,
                    pendingPayloads := [] } := by
  simp only [commitPayloadsQ] at h
  split at h
  · exact absurd h (by simp)
  · rename_i st hst
    obtain ⟨sinks, htr, hfold⟩ := commitPayloadsAux_ok q.handlerProvider
      q.pendingPayloads q.store st hst
    cases h
    exact ⟨sinks, htr, by rw [hfold]⟩

theorem applyUpdatesQ_log (q : PublishQueue) :
    ∃ upubs : List RecordSource, upubs.length ≤ 1 ∧
      (applyUpdatesQ q).store.log = q.store.log ++ upubs.map Event.publish := by
  by_cases h : q.pendingUpdaters ≠ [] ∨
      (q.pendingBackupRebase ∧ q.appliedUpdaters ≠ [])
  · simp only [applyUpdatesQ, if_pos h]
    exact ⟨[_], by simp, rfl⟩
  · refine ⟨[], by simp, ?_⟩
    simp [applyUpdatesQ, if_neg h]

theorem rebaseStep_pos (q : PublishQueue)
    (h : q.pendingBackupRebase ∧ q.backup ≠ []) :
    rebaseStep q = { q with store := storePublish q.store q.backup,
                            backup := [] } := by
  simp only [rebaseStep, if_pos h]

theorem rebaseStep_neg (q : PublishQueue)
    (h : ¬(q.pendingBackupRebase ∧ q.backup ≠ [])) :
    rebaseStep q = q := by
  simp only [rebaseStep, if_neg h]

theorem rebaseStep_log (q : PublishQueue) :
    ∃ bpubs : List RecordSource, bpubs.length ≤ 1 ∧
      (rebaseStep q).store.log = q.store.log ++ bpubs.map Event.publish := by
  by_cases h : q.pendingBackupRebase ∧ q.backup ≠ []
  · rw [rebaseStep_pos q h]
    exact ⟨[q.backup], by simp, rfl⟩
  · rw [rebaseStep_neg q h]
    exact ⟨[], by simp, by simp⟩

theorem run_ok_decomp (q q2 : PublishQueue) (h : run q = RunResult.ok q2) :
    ∃ qa, commitPayloadsQ (rebaseStep q) = Except.ok qa ∧
      q2 = { applyUpdatesQ qa with
        pendingBackupRebase := false,
        store := storeNotify (applyUpdatesQ qa).store } := by
  simp only [run] at h
  split at h
  · exact absurd h (by simp)
  · rename_i qa hqa
    cases h
    exact ⟨qa, hqa, rfl⟩

/-- Claim C1: every successful `run()` appends to the store's event log only
publish events followed by exactly one final `notify()` and clears the
rebase flag; when a rebase is pending and the backup non-empty the first
step publishes the backup and resets it to empty; and a `run()` with nothing
pending performs no publish, leaves the store source unchanged and calls
`notify()` exactly once. -/
theorem c1_run_order (q : PublishQueue) :
    (∀ q2, run q = RunResult.ok q2 →
      (∃ pubs : List RecordSource,
        q2.store.log = q.store.log ++ pubs.map Event.publish ++ [Event.notify])
      ∧ q2.pendingBackupRebase = false)
    ∧ (q.pendingBackupRebase = true → q.backup ≠ [] →
        rebaseStep q = { q with store := storePublish q.store q.backup,
                                backup := [] })
    ∧ (q.pendingPayloads = [] → q.pendingUpdaters = [] →
        q.pendingBackupRebase = false →
        run q = RunResult.ok
          { q with store := storeNotify q.store, pendingBackupRebase := false }
        ∧ (storeNotify q.store).log = q.store.log ++ [Event.notify]
        ∧ (storeNotify q.store).source = q.store.source) := by
  refine ⟨?_, ?_, ?_⟩
  · intro q2 h
    obtain ⟨qa, hcp, hq2⟩ := run_ok_decomp q q2 h
    obtain ⟨bpubs, _, hblog⟩ := rebaseStep_log q
    obtain ⟨sinks, _, hfold⟩ := commitPayloadsQ_ok (rebaseStep q) qa hcp
    obtain ⟨upubs, _, hulog⟩ := applyUpdatesQ_log qa
    constructor
    · refine ⟨bpubs ++ sinks ++ upubs, ?_⟩
      have hqa : qa.store.log =
          q.store.log ++ bpubs.map Event.publish ++ sinks.map Event.publish := by
        rw [hfold]
        show (sinks.foldl storePublish (rebaseStep q).store).log =
          q.store.log ++ bpubs.map Event.publish ++ sinks.map Event.publish
        rw [foldl_storePublish_log, hblog, List.append_assoc]
      have : q2.store.log = (applyUpdatesQ qa).store.log ++ [Event.notify] := by
        rw [hq2]; rfl
      rw [this, hulog, hqa]
      simp [List.map_append, List.append_assoc]
    · rw [hq2]
  · intro h1 h2
    exact rebaseStep_pos q ⟨by rw [h1], h2⟩
  · intro h1 h2 h3
    exact ⟨run_quiescent q h1 h2 h3, rfl, rfl⟩

theorem c1_witness :
    run (mkQueue noHandlers) = RunResult.ok
      { mkQueue noHandlers with
        store := storeNotify (mkQueue noHandlers).store,
        pendingBackupRebase := false }
    ∧ (∃ pubs : List RecordSource,
        ({ mkQueue noHandlers with
           store := storeNotify (mkQueue noHandlers).store,
           pendingBackupRebase := false } : PublishQueue).store.log =
          (mkQueue noHandlers).store.log ++ pubs.map Event.publish ++
            [Event.notify]) := by
  have h3 := ((c1_run_order (mkQueue noHandlers)).2.2 rfl rfl rfl).1
  exact ⟨h3, ((c1_run_order (mkQueue noHandlers)).1 _ h3).1⟩

theorem rebaseStep_fields (q : PublishQueue) :
    (rebaseStep q).handlerProvider = q.handlerProvider ∧
    (rebaseStep q).pendingPayloads = q.pendingPayloads ∧
    (rebaseStep q).pendingUpdaters = q.pendingUpdaters ∧
    (rebaseStep q).appliedUpdaters = q.appliedUpdaters ∧
    (rebaseStep q).pendingBackupRebase = q.pendingBackupRebase := by
  unfold rebaseStep
  split <;> exact ⟨rfl, rfl, rfl, rfl, rfl⟩

theorem runFieldHandlers_err (provider : HandlerProvider) :
    ∀ (fps : List HandleFieldPayload) (m : Mutator),
      (∃ fp ∈ fps, provider fp.handle = none) →
      ∃ e, runFieldHandlers provider fps m = Except.error e := by
  intro fps
  induction fps with
  | nil =>
    rintro m ⟨fp, hmem, _⟩
    simp at hmem
  | cons f rest ih =>
    rintro m ⟨fp, hmem, hnone⟩
    cases hf : provider f.handle with
    | none => exact ⟨missingMsg f.handle, by simp [runFieldHandlers, hf]⟩
    | some h =>
      rcases List.mem_cons.mp hmem with rfl | hmem2
      · rw [hf] at hnone
        exact absurd hnone (by simp)
      · obtain ⟨e, he⟩ := ih (h.update f m) ⟨fp, hmem2, hnone⟩
        exact ⟨e, by simp [runFieldHandlers, hf, he]⟩

theorem processPayload_err (provider : HandlerProvider) (src : RecordSource)
    (p : Payload)
    (h : ∃ fp ∈ p.fieldPayloads.getD [], provider fp.handle = none) :
    ∃ e, processPayload provider src p = Except.error e := by
  obtain ⟨e, he⟩ := runFieldHandlers_err provider (p.fieldPayloads.getD [])
    { base := src, sink := p.source, backup := none } h
  exact ⟨e, by simp [processPayload, he]⟩

theorem commitPayloadsAux_err_head (provider : HandlerProvider) (st : Store)
    (p : Payload) (rest : List Payload)
    (h : ∃ fp ∈ p.fieldPayloads.getD [], provider fp.handle = none) :
    ∃ e, commitPayloadsAux provider st (p :: rest) = Except.error (e, st) := by
  obtain ⟨e, he⟩ := processPayload_err provider st.source p h
  exact ⟨e, by simp [commitPayloadsAux, he]⟩

theorem commitPayloadsAux_err_any (provider : HandlerProvider) :
    ∀ (ps : List Payload) (st : Store),
      (∃ p ∈ ps, ∃ fp ∈ p.fieldPayloads.getD [], provider fp.handle = none) →
      ∃ e st2, commitPayloadsAux provider st ps = Except.error (e, st2) := by
  intro ps
  induction ps with
  | nil =>
    rintro st ⟨p, hmem, _⟩
    simp at hmem
  | cons p0 rest ih =>
    rintro st ⟨p, hmem, hfp⟩
    cases hproc : processPayload provider st.source p0 with
    | error e => exact ⟨e, st, by simp [commitPayloadsAux, hproc]⟩
    | ok sink =>
      rcases List.mem_cons.mp hmem with rfl | hmem2
      · obtain ⟨e, he⟩ := processPayload_err provider st.source p hfp
        rw [hproc] at he
        exact absurd he (by simp)
      · obtain ⟨e, st2, h2⟩ := ih (storePublish st sink) ⟨p, hmem2, hfp⟩
        exact ⟨e, st2, by simp [commitPayloadsAux, hproc, h2]⟩

theorem run_err_of_commit (q : PublishQueue) (e : String) (st2 : Store)
    (h : commitPayloadsAux (rebaseStep q).handlerProvider (rebaseStep q).store
      (rebaseStep q).pendingPayloads = Except.error (e, st2)) :
    run q = RunResult.err e { rebaseStep q with store := st2 } := by
  simp [run, commitPayloadsQ, h]

/-- Claim C7: if any fieldPayload of any pending payload names a handle with
no registered handler, `run()` throws a fatal error; and when the offending
payload is the first pending payload, the error is raised before that
payload's source is published: the store is exactly as the backup-rebase
step left it and no payload publish happened. -/
theorem c7_missing_handler (q : PublishQueue) :
    (∀ p fp, p ∈ q.pendingPayloads → fp ∈ p.fieldPayloads.getD [] →
        q.handlerProvider fp.handle = none →
        ∃ e q2, run q = RunResult.err e q2)
    ∧ (∀ p rest, q.pendingPayloads = p :: rest →
        (∃ fp ∈ p.fieldPayloads.getD [], q.handlerProvider fp.handle = none) →
        ∃ e, run q = RunResult.err e (rebaseStep q)) := by
  obtain ⟨hprov, hpay, -, -, -⟩ := rebaseStep_fields q
  constructor
  · intro p fp hp hfp hnone
    obtain ⟨e, st2, herr⟩ := commitPayloadsAux_err_any
      (rebaseStep q).handlerProvider (rebaseStep q).pendingPayloads
      (rebaseStep q).store
      ⟨p, by rw [hpay]; exact hp, fp, hfp, by rw [hprov]; exact hnone⟩
    exact ⟨e, _, run_err_of_commit q e st2 herr⟩
  · intro p rest hps hex
    obtain ⟨e, herr⟩ := commitPayloadsAux_err_head
      (rebaseStep q).handlerProvider (rebaseStep q).store p rest
      (by obtain ⟨fp, h1, h2⟩ := hex; exact ⟨fp, h1, by rw [hprov]; exact h2⟩)
    have hps2 : (rebaseStep q).pendingPayloads = p :: rest := by
      rw [hpay, hps]
    rw [← hps2] at herr
    have hrun := run_err_of_commit q e (rebaseStep q).store herr
    exact ⟨e, hrun⟩

/-- The fieldPayload of Scenario D: its handle name has no registered
handler. -/
def scenD_fp : HandleFieldPayload :=
  { dataID := "4", fieldKey := "friends", handle := "unregistered",
    handleKey := "hk" }

/-- Scenario D: a payload whose fieldPayload names the unregistered handle
"unregistered", committed against a provider with no handlers. -/
def scenD_q : PublishQueue :=
  commitPayload "client:root" (some [scenD_fp]) officialSrc none
    (mkQueue noHandlers)

theorem c7_witness :
    ∃ e, run scenD_q = RunResult.err e (rebaseStep scenD_q) :=
  (c7_missing_handler scenD_q).2
    { fieldPayloads := some [scenD_fp], selector := "client:root",
      source := officialSrc, updater := none }
    [] rfl ⟨scenD_fp, by simp, rfl⟩

theorem applyUpdatesQ_replay (q : PublishQueue)
    (h : q.pendingUpdaters ≠ [] ∨
      (q.pendingBackupRebase ∧ q.appliedUpdaters ≠ [])) :
    applyUpdatesQ q =
      { q with
        store := storePublish q.store
          ((replayUpdaters q).foldl applyUpdater
            { base := q.store.source, sink := [], backup := some q.backup }).sink,
        backup := ((replayUpdaters q).foldl applyUpdater
          { base := q.store.source, sink := [],
            backup := some q.backup }).backup.getD [],
        appliedUpdaters := q.pendingUpdaters.foldl jsAdd q.appliedUpdaters,
        pendingUpdaters := [] } := by
  simp only [applyUpdatesQ, if_pos h, replayUpdaters]
  by_cases h2 : q.pendingBackupRebase ∧ q.appliedUpdaters ≠ []
  · simp only [if_pos h2, List.foldl_append]
  · simp only [if_neg h2, List.nil_append]

theorem foldl_jsAdd_append :
    ∀ (pend acc : List Updater), (∀ u ∈ pend, u ∉ acc) → pend.Nodup →
      pend.foldl jsAdd acc = acc ++ pend := by
  intro pend
  induction pend with
  | nil => intro acc _ _; simp
  | cons u rest ih =>
    intro acc hdisj hnd
    have hu : u ∉ acc := hdisj u (by simp)
    have hstep : jsAdd acc u = acc ++ [u] := by simp [jsAdd, hu]
    rw [List.foldl_cons, hstep, ih (acc ++ [u]) ?_ (List.Nodup.of_cons hnd)]
    · simp
    · intro v hv
      simp only [List.mem_append, List.mem_singleton]
      rintro (hva | rfl)
      · exact hdisj v (by simp [hv]) hva
      · exact (List.nodup_cons.mp hnd).1 hv

theorem erase_middle (l1 l2 : List Updater) (u : Updater) (h : u ∉ l1) :
    (l1 ++ u :: l2).erase u = l1 ++ l2 := by
  rw [List.erase_append_right _ h, List.erase_cons_head]

theorem commitTrace_length (provider : HandlerProvider) :
    ∀ (ps : List Payload) (src : RecordSource) (sinks : List RecordSource),
      commitTrace provider src ps = some sinks → sinks.length = ps.length := by
  intro ps
  induction ps with
  | nil =>
    intro src sinks h
    simp only [commitTrace] at h
    cases h
    rfl
  | cons p rest ih =>
    intro src sinks h
    simp only [commitTrace] at h
    split at h
    · exact absurd h (by simp)
    · rename_i sink hp
      cases htr : commitTrace provider (publishSrc src sink) rest with
      | none => rw [htr] at h; exact absurd h (by simp)
      | some l =>
        rw [htr] at h
        simp only [Option.map_some'] at h
        cases h
        simp [ih (publishSrc src sink) l htr]

/-- Claim C6: `_applyUpdates` replays exactly `replayUpdaters q` — the
applied updaters in original application order (when rebasing) followed by
the pending updaters in application order, never sorted or reversed; the
applied set afterwards is the applied list extended in order by the pending
list; removing one applied updater mid-sequence with `revertUpdate` keeps
the relative order of the rest; and within a `run()` all payload publishes
precede the (at most one) updater publish, which precedes the final
notify. -/
theorem c6_replay_order (q : PublishQueue) :
    (q.pendingUpdaters ≠ [] ∨
        (q.pendingBackupRebase ∧ q.appliedUpdaters ≠ []) →
      applyUpdatesQ q =
        { q with
          store := storePublish q.store
            ((replayUpdaters q).foldl applyUpdater
              { base := q.store.source, sink := [],
                backup := some q.backup }).sink,
          backup := ((replayUpdaters q).foldl applyUpdater
            { base := q.store.source, sink := [],
              backup := some q.backup }).backup.getD [],
          appliedUpdaters := q.pendingUpdaters.foldl jsAdd q.appliedUpdaters,
          pendingUpdaters := [] })
    ∧ ((∀ u ∈ q.pendingUpdaters, u ∉ q.appliedUpdaters) →
        q.pendingUpdaters.Nodup →
        q.pendingUpdaters.foldl jsAdd q.appliedUpdaters =
          q.appliedUpdaters ++ q.pendingUpdaters)
    ∧ (∀ l1 l2 u, u ∉ l1 → u ∉ q.pendingUpdaters →
        q.appliedUpdaters = l1 ++ u :: l2 →
        (revertUpdate u q).appliedUpdaters = l1 ++ l2)
    ∧ (∀ q2, run q = RunResult.ok q2 → ∃ (sinks upubs : List RecordSource),
        commitTrace q.handlerProvider (rebaseStep q).store.source
          q.pendingPayloads = some sinks ∧
        upubs.length ≤ 1 ∧
        q2.store.log = (rebaseStep q).store.log ++ sinks.map Event.publish ++
          upubs.map Event.publish ++ [Event.notify]) := by
  obtain ⟨hprov, hpay, -, -, -⟩ := rebaseStep_fields q
  refine ⟨applyUpdatesQ_replay q, ?_, ?_, ?_⟩
  · intro hdisj hnd
    exact foldl_jsAdd_append q.pendingUpdaters q.appliedUpdaters hdisj hnd
  · intro l1 l2 u h1 h2 heq
    have hmem : u ∈ q.appliedUpdaters := by rw [heq]; simp
    have hupd : (revertUpdate u q).appliedUpdaters =
        q.appliedUpdaters.erase u := by
      simp [revertUpdate, h2, hmem]
    rw [hupd, heq, erase_middle l1 l2 u h1]
  · intro q2 h
    obtain ⟨qa, hcp, hq2⟩ := run_ok_decomp q q2 h
    obtain ⟨sinks, htr, hfold⟩ := commitPayloadsQ_ok (rebaseStep q) qa hcp
    obtain ⟨upubs, hle, hulog⟩ := applyUpdatesQ_log qa
    rw [hprov, hpay] at htr
    refine ⟨sinks, upubs, htr, hle, ?_⟩
    have hqa : qa.store.log =
        (rebaseStep q).store.log ++ sinks.map Event.publish := by
      rw [hfold]
      exact foldl_storePublish_log sinks (rebaseStep q).store
    have hq2log : q2.store.log =
        (applyUpdatesQ qa).store.log ++ [Event.notify] := by
      rw [hq2]; rfl
    rw [hq2log, hulog, hqa]

/-- Updaters used by the C6 witness. -/
def wA : Updater := { token := 10, ops := [] }

/-- Second updater of the C6 witness. -/
def wB : Updater := { token := 11, ops := [] }

/-- Third updater of the C6 witness. -/
def wC : Updater := { token := 12, ops := [] }

/-- Fourth updater of the C6 witness. -/
def wD : Updater := { token := 13, ops := [] }

theorem c6_witness :
    (revertUpdate wB
      { mkQueue noHandlers with
        appliedUpdaters := [wA, wB, wC] }).appliedUpdaters = [wA, wC]
    ∧ ([wD].foldl jsAdd [wA] : List Updater) = [wA, wD] := by
  constructor
  · exact (c6_replay_order
      { mkQueue noHandlers with appliedUpdaters := [wA, wB, wC] }).2.2.1
      [wA] [wC] wB (by decide) (by simp [mkQueue]) (by decide)
  · exact (c6_replay_order
      { mkQueue noHandlers with
        pendingUpdaters := [wD], appliedUpdaters := [wA] }).2.1
      (by decide) (by decide)

/-- First payload of the C8 observation scenario: writes record "4" with
name "A". -/
def c8_p1src : RecordSource :=
  [("4", some { typename := "User", fields := [("name", Value.scalar "A")] })]

/-- Second payload's updater of the C8 observation scenario: copies record
"4"'s name (as published by the first payload) into record "5". -/
def c8_copyOps : List UpdOp := [UpdOp.copyValue "4" "name" "5" "T" "copied"]

/-- The C8 scenario queue: two payloads committed in order. -/
def c8_q : PublishQueue :=
  commitPayload "r" none [] (some c8_copyOps)
    (commitPayload "r" none c8_p1src none (mkQueue noHandlers))

/-- The C8 scenario result after one `run()`. -/
def c8_final : PublishQueue := (run c8_q).getQ

/-- Claim C8: on a successful `run()`, the pending payloads are processed in
enqueue order, each against the store source already containing the previous
payloads' publishes (`commitTrace`), one publish per payload, immediately,
and the pending payload list is cleared; processing one payload hands the
next one a source with this payload's publish merged in; concretely, a
second payload's updater observes a record written by the first payload of
the same `run()`. -/
theorem c8_payload_order (q : PublishQueue) :
    (∀ q2, run q = RunResult.ok q2 → ∃ qa sinks,
      commitPayloadsQ (rebaseStep q) = Except.ok qa ∧
      commitTrace q.handlerProvider (rebaseStep q).store.source
        q.pendingPayloads = some sinks ∧
      sinks.length = q.pendingPayloads.length ∧
      qa.store.source = sinks.foldl publishSrc (rebaseStep q).store.source ∧
      qa.store.log = (rebaseStep q).store.log ++ sinks.map Event.publish ∧
      qa.pendingPayloads = [])
    ∧ (∀ provider src p rest sink,
        processPayload provider src p = Except.ok sink →
        commitTrace provider src (p :: rest) =
          (commitTrace provider (publishSrc src sink) rest).map
            (fun l => sink :: l))
    ∧ rsContent c8_final.store.source "5" =
        some { typename := "T", fields := [("copied", Value.scalar "A")] } := by
  obtain ⟨hprov, hpay, -, -, -⟩ := rebaseStep_fields q
  refine ⟨?_, ?_, ?_⟩
  · intro q2 h
    obtain ⟨qa, hcp, _⟩ := run_ok_decomp q q2 h
    obtain ⟨sinks, htr, hfold⟩ := commitPayloadsQ_ok (rebaseStep q) qa hcp
    rw [hprov, hpay] at htr
    refine ⟨qa, sinks, hcp, htr, ?_, ?_, ?_, ?_⟩
    · exact commitTrace_length q.handlerProvider q.pendingPayloads
        (rebaseStep q).store.source sinks htr
    · rw [hfold]
      exact foldl_storePublish_source sinks (rebaseStep q).store
    · rw [hfold]
      exact foldl_storePublish_log sinks (rebaseStep q).store
    · rw [hfold]
  · intro provider src p rest sink hp
    simp only [commitTrace, hp]
  · decide

theorem c8_witness :
    commitTrace noHandlers []
        [{ fieldPayloads := none, selector := "r", source := c8_p1src,
           updater := none }] =
      (commitTrace noHandlers (publishSrc [] c8_p1src) []).map
        (fun l => c8_p1src :: l) :=
  (c8_payload_order (mkQueue noHandlers)).2.1 noHandlers []
    { fieldPayloads := none, selector := "r", source := c8_p1src,
      updater := none }
    [] c8_p1src rfl

/-- A fresh mutator with an empty sink and an empty backup over a base, as
`_applyUpdates` builds after a rebase reset. -/
def freshMutator (base : RecordSource) : Mutator :=
  { base := base, sink := [], backup := some [] }

/-- The backup/sink invariant maintained while a transaction runs: only
touched ids (those in `P`) have sink or backup entries, and every touched
id's backup entry records its pre-transaction content. -/
def BackupInv (base : RecordSource) (P : DataID → Prop) (m : Mutator) : Prop :=
  m.base = base ∧ ∃ b, m.backup = some b ∧
    (∀ id, ¬ P id → rsGet m.sink id = none ∧ rsGet b id = none) ∧
    (∀ id, P id → rsGet b id = some (rsGet base id).join)

theorem backupInv_congr (base : RecordSource) (P Q : DataID → Prop)
    (m : Mutator) (h : ∀ id, P id ↔ Q id) (hinv : BackupInv base P m) :
    BackupInv base Q m := by
  obtain ⟨hb, b, hbk, h1, h2⟩ := hinv
  exact ⟨hb, b, hbk,
    fun id hq => h1 id (fun hp => hq ((h id).mp hp)),
    fun id hq => h2 id ((h id).mpr hq)⟩

theorem backupInv_write (base : RecordSource) (P : DataID → Prop)
    (m : Mutator) (target : DataID) (w : Option Record) (m' : Mutator)
    (hm : m' = { mCapture m target with
      sink := rsSet (mCapture m target).sink target w })
    (h : BackupInv base P m) :
    BackupInv base (fun id => id = target ∨ P id) m' := by
  obtain ⟨hbase, b, hbk, h1, h2⟩ := h
  obtain ⟨mb, ms, mk⟩ := m
  simp only at hbase hbk
  have hbase2 : base = mb := hbase.symm
  subst hbase2
  subst hbk
  by_cases hcap : (rsGet b target).isSome
  · have hc : mCapture { base := base, sink := ms, backup := some b } target =
        { base := base, sink := ms, backup := some b } := by
      simp [mCapture, hcap]
    rw [hc] at hm
    subst hm
    refine ⟨rfl, b, rfl, ?_, ?_⟩
    · intro id hid
      have hne : id ≠ target := fun he => hid (Or.inl he)
      have hnp : ¬ P id := fun hp => hid (Or.inr hp)
      obtain ⟨hs, hb⟩ := h1 id hnp
      exact ⟨by rw [rsGet_set_ne _ _ _ _ hne]; exact hs, hb⟩
    · intro id hid
      rcases hid with rfl | hp
      · by_cases hp : P id
        · exact h2 id hp
        · obtain ⟨-, hbnone⟩ := h1 id hp
          rw [hbnone] at hcap
          simp at hcap
      · exact h2 id hp
  · have hc : mCapture { base := base, sink := ms, backup := some b } target =
        { base := base, sink := ms,
          backup := some (rsSet b target
            (mget { base := base, sink := ms, backup := some b } target).join) } := by
      simp [mCapture, hcap]
    rw [hc] at hm
    subst hm
    have hpt : ¬ P target := by
      intro hp
      rw [h2 target hp] at hcap
      simp at hcap
    have hmt : (mget { base := base, sink := ms, backup := some b } target).join =
        (rsGet base target).join := by
      obtain ⟨hs, -⟩ := h1 target hpt
      simp [mget, hs]
    refine ⟨rfl, _, rfl, ?_, ?_⟩
    · intro id hid
      have hne : id ≠ target := fun he => hid (Or.inl he)
      have hnp : ¬ P id := fun hp => hid (Or.inr hp)
      obtain ⟨hs, hb⟩ := h1 id hnp
      refine ⟨by rw [rsGet_set_ne _ _ _ _ hne]; exact hs, ?_⟩
      rw [rsGet_set_ne _ _ _ _ hne]
      exact hb
    · intro id hid
      rcases hid with rfl | hp
      · rw [rsGet_set_self, hmt]
      · have hne : id ≠ target := fun he => hpt (he ▸ hp)
        rw [rsGet_set_ne _ _ _ _ hne]
        exact h2 id hp

theorem backupInv_applyOp (base : RecordSource) (P : DataID → Prop)
    (m : Mutator) (op : UpdOp) (h : BackupInv base P m) :
    BackupInv base (fun id => id = opTarget op ∨ P id) (applyOp m op) := by
  cases op with
  | setValue id tname key v =>
    exact backupInv_write base P m id _ _ rfl h
  | deleteRecord id =>
    exact backupInv_write base P m id _ _ rfl h
  | copyValue fromId fromKey toId tname toKey =>
    exact backupInv_write base P m toId _ _ rfl h

theorem backupInv_applyOps (base : RecordSource) :
    ∀ (ops : List UpdOp) (P : DataID → Prop) (m : Mutator),
      BackupInv base P m →
      BackupInv base (fun id => id ∈ writeTargets ops ∨ P id)
        (applyOps m ops) := by
  intro ops
  induction ops with
  | nil =>
    intro P m h
    exact backupInv_congr base P _ m (by simp [writeTargets]) h
  | cons op rest ih =>
    intro P m h
    have h2 := ih (fun id => id = opTarget op ∨ P id) (applyOp m op)
      (backupInv_applyOp base P m op h)
    apply backupInv_congr base _ _ _ ?_ h2
    intro id
    simp only [writeTargets, List.map_cons, List.mem_cons]
    tauto

/-- Claim C9: for any updater operation list over a fresh backup, the backup
records exactly the touched ids, each with its pre-transaction content
(first touch wins, even when a record is mutated several times); publishing
the captured backup on top of the committed transaction restores every
touched record's content to its exact pre-transaction value and leaves every
untouched id's entry (full tri-state) unchanged. -/
theorem c9_backup_restore (base : RecordSource) (ops : List UpdOp)
    (m : Mutator) (R : List DataID)
    (hm : m = applyOps (freshMutator base) ops)
    (hR : R = writeTargets ops) :
    (∀ id, id ∉ R →
      rsGet m.sink id = none ∧ rsGet (m.backup.getD []) id = none)
    ∧ (∀ id, id ∈ R →
        rsGet (m.backup.getD []) id = some (rsGet base id).join)
    ∧ (∀ id, id ∉ R →
        rsGet (publishSrc (publishSrc base m.sink) (m.backup.getD [])) id =
          rsGet base id)
    ∧ (∀ id,
        rsContent (publishSrc (publishSrc base m.sink) (m.backup.getD [])) id =
          rsContent base id) := by
  have hfresh : BackupInv base (fun _ => False) (freshMutator base) :=
    ⟨rfl, [], rfl, fun _ _ => ⟨rfl, rfl⟩, fun _ hf => hf.elim⟩
  have hinv : BackupInv base (fun id => id ∈ R) m := by
    rw [hm, hR]
    exact backupInv_congr base _ _ _ (by simp)
      (backupInv_applyOps base ops (fun _ => False) (freshMutator base) hfresh)
  obtain ⟨hbase, b, hbk, h1, h2⟩ := hinv
  have hgd : m.backup.getD [] = b := by rw [hbk]; rfl
  have hrestore : ∀ id, id ∉ R →
      rsGet (publishSrc (publishSrc base m.sink) (m.backup.getD [])) id =
        rsGet base id := by
    intro id hid
    obtain ⟨hs, hb⟩ := h1 id hid
    rw [hgd, rsGet_publishSrc_of_not_mem _ _ _ hb,
      rsGet_publishSrc_of_not_mem _ _ _ hs]
  refine ⟨?_, ?_, hrestore, ?_⟩
  · intro id hid
    rw [hgd]
    exact h1 id hid
  · intro id hid
    rw [hgd]
    exact h2 id hid
  · intro id
    by_cases hid : id ∈ R
    · have hmem := rsGet_publishSrc_of_mem (publishSrc base m.sink)
        (m.backup.getD []) id (rsGet base id).join
        (by rw [hgd]; exact h2 id hid)
      rw [rsContent, hmem]
      rfl
    · rw [rsContent, rsContent, hrestore id hid]

/-- The base source of the C9 witness. -/
def c9base : RecordSource :=
  [("4", some { typename := "User", fields := [("name", Value.scalar "Greg")] })]

/-- The operations of the C9 witness: record "4" is mutated twice (the
backup must keep the first-touch value) and record "6" is created from
unknown. -/
def c9ops : List UpdOp :=
  [UpdOp.setValue "4" "User" "name" (Value.scalar "X"),
   UpdOp.setValue "4" "User" "name" (Value.scalar "Y"),
   UpdOp.setValue "6" "User" "name" (Value.scalar "Z")]

theorem c9_witness :
    rsGet ((applyOps (freshMutator c9base) c9ops).backup.getD []) "4" =
      some (rsGet c9base "4").join
    ∧ rsGet (publishSrc
        (publishSrc c9base (applyOps (freshMutator c9base) c9ops).sink)
        ((applyOps (freshMutator c9base) c9ops).backup.getD [])) "9" =
      rsGet c9base "9"
    ∧ rsContent (publishSrc
        (publishSrc c9base (applyOps (freshMutator c9base) c9ops).sink)
        ((applyOps (freshMutator c9base) c9ops).backup.getD [])) "4" =
      rsContent c9base "4" :=
  ⟨(c9_backup_restore c9base c9ops _ _ rfl rfl).2.1 "4" (by decide),
   (c9_backup_restore c9base c9ops _ _ rfl rfl).2.2.1 "9" (by decide),
   (c9_backup_restore c9base c9ops _ _ rfl rfl).2.2.2 "4"⟩

end Relay
